import Mathlib

/-!
Verification of the component-tag classifier, parser and static validator of the
`html!` procedural-macro front end (crates/macro/src/html_tree/html_component.rs).

Token streams are modelled shallowly: a token is a punctuation character, an
identifier or a literal, and a cursor is a suffix of the token list.
-/

/-- A single token of the macro input stream: punctuation, identifier or literal. -/
inductive Tok where
  | punct (c : Char)
  | ident (s : String)
  | lit (n : Nat)
deriving DecidableEq, Repr

/-! ### Tag classifier (`HtmlComponent::double_colon`, `HtmlComponent::peek_type`) -/

/-- `HtmlComponent::double_colon`: consume two consecutive `:` punctuation tokens,
returning the cursor after them, or fail. -/
def double_colon : List Tok → Option (List Tok)
  | .punct c1 :: .punct c2 :: rest =>
      if c1 = ':' ∧ c2 = ':' then some rest else none
  | _ => none

/-- The loop of `HtmlComponent::peek_type`: try a double colon (mandatory once
the first segment has been read, i.e. once `colons_optional` is `false`), then
require an identifier; accumulate the path string, joining segments with `::`
exactly when colons were found.  An iteration that consumes no identifier
breaks the loop and returns the accumulator. -/
def peek_type_loop : List Tok → String → Bool → String
  | .punct c1 :: .punct c2 :: .ident i :: rest, acc, _ =>
      if c1 = ':' ∧ c2 = ':' then peek_type_loop rest (acc ++ "::" ++ i) false
      else acc
  | .ident i :: rest, acc, copt =>
      if copt then peek_type_loop rest (acc ++ i) false else acc
  | _, acc, _ => acc

/-- Rust's `String::to_lowercase`, modelled per character. -/
def strToLower (s : String) : String :=
  ⟨s.data.map Char.toLower⟩

/-- `HtmlComponent::peek_type`: run the accumulation loop starting from the empty
path with the first separator optional, then accept iff the accumulated path is
non-empty and differs from its own lowercasing. -/
def peek_type (ts : List Tok) : Option Unit :=
  let type_str := peek_type_loop ts "" true
  if type_str = "" then none
  else if strToLower type_str ≠ type_str then some () else none

/-- Spec grammar, segments after the first: every subsequent identifier segment
requires a mandatory `::` separator before it. -/
def specSegsMandatory : List Tok → List String
  | .punct c1 :: .punct c2 :: .ident i :: rest =>
      if c1 = ':' ∧ c2 = ':' then i :: specSegsMandatory rest else []
  | _ => []

/-- Spec grammar, whole path: an optional leading `::`, a first identifier
segment, then mandatorily `::`-separated further segments; yields the
accumulated path string (`""` when no first segment can be read). -/
def specPath : List Tok → String
  | .punct c1 :: .punct c2 :: .ident i :: rest =>
      if c1 = ':' ∧ c2 = ':' then
        (specSegsMandatory rest).foldl (fun a s => a ++ "::" ++ s) ("::" ++ i)
      else ""
  | .ident i :: rest =>
      (specSegsMandatory rest).foldl (fun a s => a ++ "::" ++ s) i
  | _ => ""

theorem empty_append_str (s : String) : "" ++ s = s := by
  cases s
  rfl

theorem peek_type_loop_false :
    ∀ (ts : List Tok) (acc : String),
      peek_type_loop ts acc false =
        (specSegsMandatory ts).foldl (fun a s => a ++ "::" ++ s) acc
  | .punct c1 :: .punct c2 :: .ident i :: rest, acc => by
      by_cases h : c1 = ':' ∧ c2 = ':'
      · simp only [peek_type_loop, specSegsMandatory, if_pos h, List.foldl]
        exact peek_type_loop_false rest (acc ++ "::" ++ i)
      · simp only [peek_type_loop, specSegsMandatory, if_neg h, List.foldl]
  | .punct c1 :: .punct c2 :: .punct c3 :: rest, acc => rfl
  | .punct c1 :: .punct c2 :: .lit n :: rest, acc => rfl
  | .punct c1 :: .punct c2 :: [], acc => rfl
  | .punct c1 :: .ident i :: rest, acc => rfl
  | .punct c1 :: .lit n :: rest, acc => rfl
  | .punct c1 :: [], acc => rfl
  | .ident i :: rest, acc => rfl
  | .lit n :: rest, acc => rfl
  | [], acc => rfl

theorem peek_type_loop_spec :
    ∀ ts : List Tok, peek_type_loop ts "" true = specPath ts
  | .punct c1 :: .punct c2 :: .ident i :: rest => by
      by_cases h : c1 = ':' ∧ c2 = ':'
      · simp only [peek_type_loop, specPath, if_pos h]
        rw [peek_type_loop_false]
        rw [show (("" : String) ++ "::") = "::" from rfl]
      · simp only [peek_type_loop, specPath, if_neg h]
  | .punct c1 :: .punct c2 :: .punct c3 :: rest => rfl
  | .punct c1 :: .punct c2 :: .lit n :: rest => rfl
  | .punct c1 :: .punct c2 :: [] => rfl
  | .punct c1 :: .ident i :: rest => rfl
  | .punct c1 :: .lit n :: rest => rfl
  | .punct c1 :: [] => rfl
  | .ident i :: rest => by
      show peek_type_loop rest ("" ++ i) false = _
      rw [peek_type_loop_false, empty_append_str]
      rfl
  | .lit n :: rest => rfl
  | [] => rfl

/-- C1: classification succeeds iff the token stream parses as a type path under
the grammar with an optional first `::` and mandatory subsequent `::`s, the
accumulated path string is non-empty, and the path differs from its own
lowercasing; in particular an entirely lowercase path is always rejected. -/
theorem peek_type_classifies (ts : List Tok) :
    (peek_type ts = some () ↔
      specPath ts ≠ "" ∧ strToLower (specPath ts) ≠ specPath ts) ∧
    (strToLower (specPath ts) = specPath ts → peek_type ts = none) := by
  unfold peek_type
  rw [peek_type_loop_spec]
  constructor
  · by_cases h1 : specPath ts = ""
    · simp [h1]
    · by_cases h2 : (specPath ts).toLower ≠ specPath ts
      · simp [h1, h2]
      · simp [h1, h2]
  · intro hlow
    by_cases h1 : specPath ts = ""
    · simp [h1]
    · simp [h1, hlow]

/-- C1 witness: the entirely lowercase two-segment path `foo::bar` is a valid
multi-segment path under the grammar yet classification rejects it. -/
theorem peek_type_classifies_witness :
    peek_type [.ident "foo", .punct ':', .punct ':', .ident "bar"] = none :=
  (peek_type_classifies [.ident "foo", .punct ':', .punct ':', .ident "bar"]).2
    (by decide)

/-! ### Property declarations (`HtmlProp`, external to this file's source; the
label/value micro-grammar lives in `html_prop.rs`, which is not under `src/`) -/

/-- Modelled from the spec: a property label is a plain identifier possibly
carrying an "extended" qualifier (reserved for a different attribute-syntax
form); `html_prop.rs` is not under `src/`, only its `label.to_string()` and
`label.extended` uses are. -/
structure HtmlPropLabel where
  name : String
  extended : List String
deriving DecidableEq, Repr

/-- The rendered text of a label: the plain name followed by each extended part. -/
def HtmlPropLabel.toString (l : HtmlPropLabel) : String :=
  l.extended.foldl (fun a s => a ++ "-" ++ s) l.name

/-- Modelled from the spec: a property declaration is a (label, value) pair. -/
structure HtmlProp where
  label : HtmlPropLabel
  value : Tok
deriving DecidableEq, Repr

/-! ### Lexicographic string order (Rust's `String::partial_cmp` comparator) -/

/-- Lexicographic less-or-equal on character lists, mirroring Rust's `String`
ordering (codepoint order, shorter prefix first). -/
def lexLe : List Char → List Char → Bool
  | [], _ => true
  | _ :: _, [] => false
  | a :: as, b :: bs => if a = b then lexLe as bs else decide (a < b)

theorem lexLe_refl : ∀ l : List Char, lexLe l l = true
  | [] => rfl
  | a :: as => by simp [lexLe, lexLe_refl as]

theorem lexLe_total : ∀ a b : List Char, lexLe a b = true ∨ lexLe b a = true
  | [], _ => .inl rfl
  | _ :: _, [] => .inr rfl
  | a :: as, b :: bs => by
      by_cases h : a = b
      · subst h
        simpa [lexLe] using lexLe_total as bs
      · rcases lt_or_gt_of_ne h with hlt | hgt
        · exact .inl (by simp [lexLe, h, hlt])
        · exact .inr (by simp [lexLe, Ne.symm h, hgt])

theorem lexLe_trans :
    ∀ a b c : List Char, lexLe a b = true → lexLe b c = true → lexLe a c = true
  | [], _, _, _, _ => rfl
  | _ :: _, [], _, hab, _ => by simp [lexLe] at hab
  | _ :: _, _ :: _, [], _, hbc => by simp [lexLe] at hbc
  | a :: as, b :: bs, c :: cs, hab, hbc => by
      by_cases hab1 : a = b <;> by_cases hbc1 : b = c
      · subst hab1; subst hbc1
        simp only [lexLe, if_pos rfl] at hab hbc ⊢
        exact lexLe_trans as bs cs hab hbc
      · subst hab1
        simpa [lexLe, hbc1] using hbc
      · subst hbc1
        simpa [lexLe, hab1] using hab
      · simp only [lexLe, if_neg hab1, decide_eq_true_eq] at hab
        simp only [lexLe, if_neg hbc1, decide_eq_true_eq] at hbc
        have hac : a < c := lt_trans hab hbc
        simp [lexLe, ne_of_lt hac, hac]

theorem lexLe_antisymm :
    ∀ a b : List Char, lexLe a b = true → lexLe b a = true → a = b
  | [], [], _, _ => rfl
  | [], _ :: _, _, hba => by simp [lexLe] at hba
  | _ :: _, [], hab, _ => by simp [lexLe] at hab
  | a :: as, b :: bs, hab, hba => by
      by_cases h : a = b
      · subst h
        simp only [lexLe, if_pos rfl] at hab hba
        rw [lexLe_antisymm as bs hab hba]
      · simp only [lexLe, if_neg h, decide_eq_true_eq] at hab
        simp only [lexLe, if_neg (Ne.symm h), decide_eq_true_eq] at hba
        exact absurd hab (not_lt_of_lt hba)

/-- Rust string comparison, less-or-equal. -/
def strLe (a b : String) : Bool :=
  lexLe a.data b.data

theorem strLe_antisymm {a b : String} (hab : strLe a b = true)
    (hba : strLe b a = true) : a = b := by
  cases a with
  | mk da =>
    cases b with
    | mk db =>
      exact congrArg String.mk (lexLe_antisymm da db hab hba)

/-! ### `ListProps::parse`: validation and canonical (stable) sorting -/

/-- The sort key used by `ListProps::parse`: the label's rendered text. -/
def propKey (p : HtmlProp) : String :=
  p.label.toString

/-- The comparator handed to `sort_by` in `ListProps::parse`: ascending label
text. -/
def labelLe (a b : HtmlProp) : Prop :=
  strLe (propKey a) (propKey b) = true

instance : DecidableRel labelLe := fun _ _ =>
  inferInstanceAs (Decidable (_ = true))

instance : IsTotal HtmlProp labelLe :=
  ⟨fun _ _ => lexLe_total _ _⟩

instance : IsTrans HtmlProp labelLe :=
  ⟨fun _ _ _ => lexLe_trans _ _ _⟩

/-- The validation loop of `ListProps::parse`: return the first offending label
(text equal to the reserved word `type`, or a non-empty extended qualifier),
if any. -/
def checkProps : List HtmlProp → Option HtmlPropLabel
  | [] => none
  | p :: rest =>
    if p.label.toString = "type" then some p.label
    else if p.label.extended ≠ [] then some p.label
    else checkProps rest

/-- The pure tail of `ListProps::parse` after the collection loop: validate every
collected declaration, then sort ascending by label text.  Rust's
`Vec::sort_by` is a stable sort and is modelled by stable insertion sort.  On
failure the offending label — the span the emitted error is anchored to — is
returned. -/
def ListProps.process (props : List HtmlProp) : Except HtmlPropLabel (List HtmlProp) :=
  match checkProps props with
  | some l => .error l
  | none => .ok (props.insertionSort labelLe)

theorem checkProps_eq_none_iff (props : List HtmlProp) :
    checkProps props = none ↔
      ∀ p ∈ props, p.label.toString ≠ "type" ∧ p.label.extended = [] := by
  induction props with
  | nil => simp [checkProps]
  | cons p rest ih =>
    by_cases h1 : p.label.toString = "type"
    · simp [checkProps, h1]
    · by_cases h2 : p.label.extended = []
      · simp [checkProps, h1, h2, ih]
      · simp [checkProps, h1, h2]

theorem checkProps_some_mem {props : List HtmlProp} {l : HtmlPropLabel}
    (h : checkProps props = some l) :
    ∃ p ∈ props, p.label = l ∧
      (p.label.toString = "type" ∨ p.label.extended ≠ []) := by
  induction props with
  | nil => simp [checkProps] at h
  | cons p rest ih =>
    by_cases h1 : p.label.toString = "type"
    · simp only [checkProps, if_pos h1, Option.some.injEq] at h
      exact ⟨p, List.mem_cons_self p rest, h, Or.inl h1⟩
    · by_cases h2 : p.label.extended = []
      · have h2' : ¬ (p.label.extended ≠ []) := by simpa using h2
        simp only [checkProps, if_neg h1, if_neg h2'] at h
        obtain ⟨q, hq, hrest⟩ := ih h
        exact ⟨q, List.mem_cons_of_mem p hq, hrest⟩
      · simp only [checkProps, if_neg h1, if_pos h2, Option.some.injEq] at h
        exact ⟨p, List.mem_cons_self p rest, h, Or.inr h2⟩

theorem labelLe_of_key_eq {p q : HtmlProp} (h : propKey p = propKey q) :
    labelLe p q := by
  show strLe (propKey p) (propKey q) = true
  rw [h]
  exact lexLe_refl _

theorem filter_orderedInsert_key_pos (s : String) (p : HtmlProp)
    (hp : propKey p = s) :
    ∀ m : List HtmlProp,
      (m.orderedInsert labelLe p).filter (fun q => decide (propKey q = s)) =
        p :: m.filter (fun q => decide (propKey q = s))
  | [] => by simp [List.orderedInsert, hp]
  | b :: l => by
    by_cases hle : labelLe p b
    · simp [List.orderedInsert, hle, hp]
    · have hbs : ¬ propKey b = s := by
        intro hbs
        exact hle (labelLe_of_key_eq (hp.trans hbs.symm))
      simp only [List.orderedInsert, if_neg hle]
      rw [List.filter_cons_of_neg (by simpa using hbs),
        List.filter_cons_of_neg (by simpa using hbs)]
      exact filter_orderedInsert_key_pos s p hp l

theorem filter_orderedInsert_key_neg (s : String) (p : HtmlProp)
    (hp : ¬ propKey p = s) :
    ∀ m : List HtmlProp,
      (m.orderedInsert labelLe p).filter (fun q => decide (propKey q = s)) =
        m.filter (fun q => decide (propKey q = s))
  | [] => by simp [List.orderedInsert, hp]
  | b :: l => by
    by_cases hle : labelLe p b
    · simp only [List.orderedInsert, if_pos hle]
      rw [List.filter_cons_of_neg (by simpa using hp)]
    · simp only [List.orderedInsert, if_neg hle]
      by_cases hb : propKey b = s
      · rw [List.filter_cons_of_pos (by simpa using hb),
          List.filter_cons_of_pos (by simpa using hb),
          filter_orderedInsert_key_neg s p hp l]
      · rw [List.filter_cons_of_neg (by simpa using hb),
          List.filter_cons_of_neg (by simpa using hb),
          filter_orderedInsert_key_neg s p hp l]

theorem filter_insertionSort_key (s : String) :
    ∀ l : List HtmlProp,
      (l.insertionSort labelLe).filter (fun q => decide (propKey q = s)) =
        l.filter (fun q => decide (propKey q = s))
  | [] => rfl
  | a :: l => by
    show ((l.insertionSort labelLe).orderedInsert labelLe a).filter _ = _
    by_cases ha : propKey a = s
    · rw [filter_orderedInsert_key_pos s a ha, filter_insertionSort_key s l,
        List.filter_cons_of_pos (by simpa using ha)]
    · rw [filter_orderedInsert_key_neg s a ha, filter_insertionSort_key s l,
        List.filter_cons_of_neg (by simpa using ha)]

/-- Strict version of the sort comparator: less-or-equal with distinct keys.
Vacuously antisymmetric, which lets two sorted permutations with pairwise
distinct keys be identified. -/
def labelLtStrict (a b : HtmlProp) : Prop :=
  labelLe a b ∧ propKey a ≠ propKey b

instance : IsAntisymm HtmlProp labelLtStrict :=
  ⟨fun _ _ h1 h2 => absurd (strLe_antisymm h1.1 h2.1) h1.2⟩

theorem pairwise_labelLtStrict {l : List HtmlProp} (hs : List.Sorted labelLe l)
    (hn : (l.map propKey).Nodup) : l.Pairwise labelLtStrict := by
  have h2 : l.Pairwise (fun a b => propKey a ≠ propKey b) :=
    List.pairwise_map.mp hn
  exact (List.Pairwise.and hs h2).imp (fun h => h)

theorem insertionSort_eq_of_perm {l1 l2 : List HtmlProp} (hp : l1.Perm l2)
    (hn : (l2.map propKey).Nodup) :
    l1.insertionSort labelLe = l2.insertionSort labelLe := by
  have hperm : (l1.insertionSort labelLe).Perm (l2.insertionSort labelLe) :=
    ((List.perm_insertionSort labelLe l1).trans hp).trans
      (List.perm_insertionSort labelLe l2).symm
  have hn1 : ((l1.insertionSort labelLe).map propKey).Nodup := by
    rw [List.Perm.nodup_iff
      ((((List.perm_insertionSort labelLe l1).trans hp)).map propKey)]
    exact hn
  have hn2 : ((l2.insertionSort labelLe).map propKey).Nodup := by
    rw [List.Perm.nodup_iff ((List.perm_insertionSort labelLe l2).map propKey)]
    exact hn
  exact List.eq_of_perm_of_sorted hperm
    (pairwise_labelLtStrict (List.sorted_insertionSort labelLe l1) hn1)
    (pairwise_labelLtStrict (List.sorted_insertionSort labelLe l2) hn2)

/-- C2: every accepted property list comes out sorted ascending by label text;
the sort keeps each label paired with its declared value and keeps equal labels
in declaration order (stability, stated as filter-invariance for every key);
re-processing the output leaves it unchanged; and any permutation of the input
with pairwise distinct labels yields the identical result. -/
theorem listProps_canonical (props out : List HtmlProp)
    (h : ListProps.process props = .ok out) :
    List.Sorted labelLe out ∧
    out.Perm props ∧
    (∀ s, out.filter (fun q => decide (propKey q = s)) =
      props.filter (fun q => decide (propKey q = s))) ∧
    ListProps.process out = .ok out ∧
    (∀ props2 : List HtmlProp, props2.Perm props →
      (props.map propKey).Nodup → ListProps.process props2 = .ok out) := by
  have hchk : checkProps props = none := by
    unfold ListProps.process at h
    cases hc : checkProps props with
    | none => rfl
    | some l => rw [hc] at h; exact absurd h (by simp)
  have hout : out = props.insertionSort labelLe := by
    unfold ListProps.process at h
    rw [hchk] at h
    exact (Except.ok.inj h).symm
  subst hout
  refine ⟨List.sorted_insertionSort labelLe props,
    List.perm_insertionSort labelLe props,
    fun s => filter_insertionSort_key s props, ?_, ?_⟩
  · have hchk2 : checkProps (props.insertionSort labelLe) = none := by
      rw [checkProps_eq_none_iff]
      intro p hp
      exact (checkProps_eq_none_iff props).mp hchk p
        ((List.perm_insertionSort labelLe props).mem_iff.mp hp)
    unfold ListProps.process
    rw [hchk2, (List.sorted_insertionSort labelLe props).insertionSort_eq]
  · intro props2 hperm hn
    have hchk2 : checkProps props2 = none := by
      rw [checkProps_eq_none_iff]
      intro p hp
      exact (checkProps_eq_none_iff props).mp hchk p (hperm.mem_iff.mp hp)
    unfold ListProps.process
    rw [hchk2, insertionSort_eq_of_perm hperm hn]

/-- Example property declarations used by concrete witnesses. -/
def exPropA : HtmlProp :=
  ⟨⟨"a", []⟩, .lit 1⟩

/-- Second example property declaration. -/
def exPropB : HtmlProp :=
  ⟨⟨"b", []⟩, .lit 2⟩

/-- C2 witness: `<Foo b=2 a=1 />` processes to the sorted list `[a=1, b=2]`,
which is sorted, a stable permutation of the input, idempotent, and equal to
the result for the reordered declaration `<Foo a=1 b=2 />`. -/
theorem listProps_canonical_witness :
    List.Sorted labelLe [exPropA, exPropB] ∧
      List.Perm [exPropA, exPropB] [exPropB, exPropA] ∧
      (∀ s, List.filter (fun q => decide (propKey q = s)) [exPropA, exPropB] =
        List.filter (fun q => decide (propKey q = s)) [exPropB, exPropA]) ∧
      ListProps.process [exPropA, exPropB] = .ok [exPropA, exPropB] ∧
      (∀ props2 : List HtmlProp, props2.Perm [exPropB, exPropA] →
        (List.map propKey [exPropB, exPropA]).Nodup →
        ListProps.process props2 = .ok [exPropA, exPropB]) :=
  listProps_canonical [exPropB, exPropA] [exPropA, exPropB] (by rfl)

/-- C6: processing a collected property list fails iff some label's text equals
the reserved word `type` or some label carries a non-empty extended qualifier,
regardless of position; and the error returned is anchored at an offending
label of the list. -/
theorem listProps_reserved (props : List HtmlProp) :
    ((∃ e, ListProps.process props = .error e) ↔
      ∃ p ∈ props, p.label.toString = "type" ∨ p.label.extended ≠ []) ∧
    (∀ l, ListProps.process props = .error l →
      ∃ p ∈ props, p.label = l ∧
        (p.label.toString = "type" ∨ p.label.extended ≠ [])) := by
  constructor
  · constructor
    · rintro ⟨e, he⟩
      unfold ListProps.process at he
      cases hc : checkProps props with
      | none => rw [hc] at he; exact absurd he (by simp)
      | some l =>
        obtain ⟨p, hp, _, hoff⟩ := checkProps_some_mem hc
        exact ⟨p, hp, hoff⟩
    · rintro ⟨p, hp, hoff⟩
      unfold ListProps.process
      cases hc : checkProps props with
      | none =>
        have := (checkProps_eq_none_iff props).mp hc p hp
        rcases hoff with h | h
        · exact absurd h this.1
        · exact absurd this.2 h
      | some l => exact ⟨l, rfl⟩
  · intro l hl
    unfold ListProps.process at hl
    cases hc : checkProps props with
    | none => rw [hc] at hl; exact absurd hl (by simp)
    | some l' =>
      rw [hc] at hl
      obtain ⟨p, hp, hpl, hoff⟩ := checkProps_some_mem hc
      cases hl
      exact ⟨p, hp, hpl, hoff⟩

/-- A property declaration labelled with the reserved word `type`. -/
def exPropReserved : HtmlProp :=
  ⟨⟨"type", []⟩, .lit 3⟩

/-- C6 witness: a list whose second declaration is labelled `type` fails, with
the error anchored at that label. -/
theorem listProps_reserved_witness :
    ∃ p ∈ [exPropA, exPropReserved], p.label = ⟨"type", []⟩ ∧
      (p.label.toString = "type" ∨ p.label.extended ≠ []) :=
  (listProps_reserved [exPropA, exPropReserved]).2 ⟨"type", []⟩ (by rfl)

/-- C9: a collected property list with repeated labels that passes the
reserved-word and extended-qualifier checks still parses successfully, and the
sorted output retains every declaration (it is a permutation of the input, so
no deduplication happens). -/
theorem listProps_duplicates (props : List HtmlProp)
    (hdup : ¬ (props.map propKey).Nodup)
    (hok : ∀ p ∈ props, p.label.toString ≠ "type" ∧ p.label.extended = []) :
    ∃ out, ListProps.process props = .ok out ∧ out.Perm props := by
  have hchk : checkProps props = none := (checkProps_eq_none_iff props).mpr hok
  refine ⟨props.insertionSort labelLe, ?_, List.perm_insertionSort labelLe props⟩
  unfold ListProps.process
  rw [hchk]

/-- A second property declaration sharing the label `a`. -/
def exPropA2 : HtmlProp :=
  ⟨⟨"a", []⟩, .lit 2⟩

/-- C9 witness: `a=1 a=2` has repeated labels, passes the checks, and both
declarations are retained in the output. -/
theorem listProps_duplicates_witness :
    ∃ out, ListProps.process [exPropA, exPropA2] = .ok out ∧
      out.Perm [exPropA, exPropA2] :=
  listProps_duplicates [exPropA, exPropA2] (by decide) (by decide)

/-! ### Static validator / emitter (`HtmlComponent::to_tokens`) -/

/-- The two property forms of `Props` (`Props::List`, `Props::With`). -/
inductive PropsSpec where
  | list (props : List HtmlProp)
  | withProps (name : String)
deriving DecidableEq, Repr

/-- `HtmlComponentInner`: the parsed component descriptor — a type reference
(rendered as its path text) and an optional property spec. -/
structure HtmlComponentInner where
  ty : String
  props : Option PropsSpec
deriving DecidableEq, Repr

/-- The construction expression (`init_props`) for the virtual node. -/
inductive InitProps where
  | builder (ty : String) (setters : List (String × Tok))
  | withValue (name : String)
  | defaultBuilder (ty : String)
deriving DecidableEq, Repr

/-- A structural fragment of the emitted token stream. -/
inductive Frag where
  | ifFalse (body : List Frag)
  | validateComp (ty : String)
  | uninitPropRef (ty : String)
  | fieldCheck (label : String)
  | scopeDecl
  | vcompNode (ty : String) (ip : InitProps)

/-- The `validate_props` fragment of `HtmlComponent::to_tokens`: for the
`Props::List` form, the uninitialized placeholder of the properties type
followed by one field access per declared label; empty otherwise. -/
def validate_props (ty : String) (props : Option PropsSpec) : List Frag :=
  match props with
  | some (.list vec_props) =>
      .uninitPropRef ty :: vec_props.map (fun p => .fieldCheck p.label.toString)
  | _ => []

/-- The `init_props` expression of `HtmlComponent::to_tokens`: builder chain for
a property list, the delegate value for `with`, and the default builder when no
properties are given. -/
def init_props (ty : String) (props : Option PropsSpec) : InitProps :=
  match props with
  | some (.list vec_props) =>
      .builder ty (vec_props.map (fun p => (p.label.toString, p.value)))
  | some (.withProps w) => .withValue w
  | none => .defaultBuilder ty

/-- `HtmlComponent::to_tokens`: a block whose first statement is
`if false { #validate_comp #validate_props }`, followed by the scope holder
declaration and the `VComp` construction. -/
def to_tokens (c : HtmlComponentInner) : List Frag :=
  [ .ifFalse (.validateComp c.ty :: validate_props c.ty c.props),
    .scopeDecl,
    .vcompNode c.ty (init_props c.ty c.props) ]

/-- Whether a fragment belongs to the validation fragment (the component
contract assertion, the placeholder, or a field-access check). -/
def Frag.isValidation : Frag → Bool
  | .validateComp _ => true
  | .uninitPropRef _ => true
  | .fieldCheck _ => true
  | _ => false

/-- The fragments guarded by a compile-time-false condition (the bodies of the
top-level `if false` blocks) of an emitted stream. -/
def guardedFrags : List Frag → List Frag
  | [] => []
  | .ifFalse body :: rest => body ++ guardedFrags rest
  | _ :: rest => guardedFrags rest

/-- The labels of the field-access checks appearing in a flat fragment list. -/
def fieldCheckLabels : List Frag → List String
  | [] => []
  | .fieldCheck l :: rest => l :: fieldCheckLabels rest
  | _ :: rest => fieldCheckLabels rest

theorem fieldCheckLabels_map (l : List HtmlProp) :
    fieldCheckLabels (l.map (fun p => Frag.fieldCheck p.label.toString)) =
      l.map (fun p => p.label.toString) := by
  induction l with
  | nil => rfl
  | cons p ps ih => simpa [fieldCheckLabels] using ih

/-- C3: the emitted stream keeps the entire validation fragment inside the
block guarded by the compile-time-false condition (no validation fragment at
top level, no field check outside the guard, and the guarded body is the
contract assertion followed by the property-check portion), and the guarded
part carries exactly one field-access check per declared label when and only
when the property spec is the list form — for the delegate and absent forms
the property-check portion is empty. -/
theorem to_tokens_validation (c : HtmlComponentInner) :
    (∀ f ∈ to_tokens c, f.isValidation = false) ∧
    (∃ rest, to_tokens c =
        Frag.ifFalse (.validateComp c.ty :: validate_props c.ty c.props) :: rest ∧
      guardedFrags rest = [] ∧ fieldCheckLabels rest = []) ∧
    fieldCheckLabels (guardedFrags (to_tokens c)) =
      (match c.props with
       | some (.list vec_props) => vec_props.map (fun p => p.label.toString)
       | _ => []) ∧
    fieldCheckLabels (to_tokens c) = [] ∧
    (∀ w, c.props = some (.withProps w) → validate_props c.ty c.props = []) ∧
    (c.props = none → validate_props c.ty c.props = []) := by
  obtain ⟨ty, props⟩ := c
  refine ⟨?_,
    ⟨[.scopeDecl, .vcompNode ty (init_props ty props)], rfl, rfl, rfl⟩,
    ?_, rfl, ?_, ?_⟩
  · intro f hf
    rcases List.mem_cons.mp hf with rfl | hf
    · rfl
    rcases List.mem_cons.mp hf with rfl | hf
    · rfl
    rcases List.mem_cons.mp hf with rfl | hf
    · rfl
    · exact absurd hf (List.not_mem_nil f)
  · cases props with
    | none => rfl
    | some ps =>
      cases ps with
      | withProps w => rfl
      | list vec_props =>
        show fieldCheckLabels
          ((Frag.validateComp ty :: validate_props ty (some (.list vec_props)))
            ++ guardedFrags [.scopeDecl, .vcompNode ty _]) = _
        rw [show guardedFrags
            [Frag.scopeDecl, Frag.vcompNode ty (init_props ty (some (.list vec_props)))] =
            [] from rfl]
        rw [List.append_nil]
        show fieldCheckLabels
          (List.map (fun p => Frag.fieldCheck p.label.toString) vec_props) = _
        exact fieldCheckLabels_map vec_props
  · rintro w hw
    subst hw
    rfl
  · rintro hn
    subst hn
    rfl

/-- C3 witness: the emitted stream for `<Foo a=1 b=2 />` — validation entirely
guarded, exactly the two declared labels checked. -/
theorem to_tokens_validation_witness :
    (∀ f ∈ to_tokens ⟨"Foo", some (.list [exPropA, exPropB])⟩,
      f.isValidation = false) ∧
    (∃ rest, to_tokens ⟨"Foo", some (.list [exPropA, exPropB])⟩ =
        Frag.ifFalse (.validateComp "Foo" ::
          validate_props "Foo" (some (.list [exPropA, exPropB]))) :: rest ∧
      guardedFrags rest = [] ∧ fieldCheckLabels rest = []) ∧
    fieldCheckLabels
        (guardedFrags (to_tokens ⟨"Foo", some (.list [exPropA, exPropB])⟩)) =
      [exPropA, exPropB].map (fun p => p.label.toString) ∧
    fieldCheckLabels (to_tokens ⟨"Foo", some (.list [exPropA, exPropB])⟩) = [] ∧
    (∀ w, (some (.list [exPropA, exPropB]) : Option PropsSpec) =
        some (.withProps w) →
      validate_props "Foo" (some (.list [exPropA, exPropB])) = []) ∧
    ((some (.list [exPropA, exPropB]) : Option PropsSpec) = none →
      validate_props "Foo" (some (.list [exPropA, exPropB])) = []) :=
  to_tokens_validation ⟨"Foo", some (.list [exPropA, exPropB])⟩

/-! ### Component tag parser (`HtmlComponent::parse`) -/

/-- An abstract source location. -/
structure Span where
  id : Nat
deriving DecidableEq, Repr

/-- What a reported error is anchored to: the synthesized `<`/`>` tag pair
(`HtmlComponentTag`), or a single token's span. -/
inductive Anchor where
  | tagPair (lt gt : Span)
  | tok (s : Span)
deriving DecidableEq, Repr

/-- A `syn::Error`: an anchor and a message. -/
structure ParseError where
  anchor : Anchor
  msg : String
deriving DecidableEq, Repr

/-- The result of the shared tag-suffix parse (`HtmlPropSuffix`, external to
`src/`): the interior token stream, the optional self-close `/` marker span,
and the closing `>` span. -/
structure HtmlPropSuffix where
  stream : List Tok
  div : Option Span
  gt : Span
deriving DecidableEq, Repr

/-- `HtmlComponent::parse`, parameterized by the inner descriptor parse
(`syn::parse::<HtmlComponentInner>`): given the `<` span and the parsed tag
suffix, reject a tag without self-close marker with an error anchored to the
`<`/`>` pair; otherwise run the inner parse, re-anchoring an
unexpected-end-of-input failure to the self-close marker and propagating every
other failure unchanged. -/
def HtmlComponent.parse
    (innerParse : List Tok → Except ParseError HtmlComponentInner)
    (lt : Span) (sfx : HtmlPropSuffix) : Except ParseError HtmlComponentInner :=
  match sfx.div with
  | none =>
    .error ⟨.tagPair lt sfx.gt, "expected component tag be of form `< .. />`"⟩
  | some d =>
    match innerParse sfx.stream with
    | .ok comp => .ok comp
    | .error err =>
      if err.msg.startsWith "unexpected end of input" then
        .error ⟨.tok d, err.msg⟩
      else
        .error err

/-- C4: a component tag without the self-close marker fails with the
malformed-tag error anchored to the synthesized `<`/`>` pair, whatever the
inner descriptor parse would do (it is never consulted). -/
theorem parse_not_self_closed
    (innerParse : List Tok → Except ParseError HtmlComponentInner)
    (lt : Span) (sfx : HtmlPropSuffix) (h : sfx.div = none) :
    HtmlComponent.parse innerParse lt sfx =
      .error ⟨.tagPair lt sfx.gt,
        "expected component tag be of form `< .. />`"⟩ := by
  unfold HtmlComponent.parse
  rw [h]

/-- C4 witness: `<Foo>` (no `/` marker) is rejected at the bracket pair even
though the inner parse of its interior would succeed. -/
theorem parse_not_self_closed_witness :
    HtmlComponent.parse (fun _ => .ok ⟨"Foo", none⟩) ⟨0⟩
        ⟨[.ident "Foo"], none, ⟨1⟩⟩ =
      .error ⟨.tagPair ⟨0⟩ ⟨1⟩, "expected component tag be of form `< .. />`"⟩ :=
  parse_not_self_closed (fun _ => .ok ⟨"Foo", none⟩) ⟨0⟩
    ⟨[.ident "Foo"], none, ⟨1⟩⟩ rfl

/-- C5: when a self-closed tag's interior parse fails, an
unexpected-end-of-input failure is re-reported with the same message anchored
to the self-close marker's span, and every other failure propagates unchanged
(same message, same anchor). -/
theorem parse_error_translation
    (innerParse : List Tok → Except ParseError HtmlComponentInner)
    (lt : Span) (sfx : HtmlPropSuffix) (d : Span) (e : ParseError)
    (hd : sfx.div = some d) (he : innerParse sfx.stream = .error e) :
    HtmlComponent.parse innerParse lt sfx =
      if e.msg.startsWith "unexpected end of input" then
        .error ⟨.tok d, e.msg⟩
      else
        .error e := by
  unfold HtmlComponent.parse
  rw [hd, he]

/-- C5 witness: an inner failure whose message starts with
"unexpected end of input" (as for `<Foo a= />`) is re-anchored from its inner
span to the self-close marker's span, keeping the message. -/
theorem parse_error_translation_witness :
    HtmlComponent.parse
        (fun _ => .error ⟨.tok ⟨7⟩, "unexpected end of input, expected expression"⟩)
        ⟨0⟩ ⟨[.ident "Foo"], some ⟨2⟩, ⟨3⟩⟩ =
      (if ("unexpected end of input, expected expression").startsWith
          "unexpected end of input" then
        .error ⟨.tok ⟨2⟩, "unexpected end of input, expected expression"⟩
      else
        .error ⟨.tok ⟨7⟩, "unexpected end of input, expected expression"⟩) :=
  parse_error_translation
    (fun _ => .error ⟨.tok ⟨7⟩, "unexpected end of input, expected expression"⟩)
    ⟨0⟩ ⟨[.ident "Foo"], some ⟨2⟩, ⟨3⟩⟩ ⟨2⟩
    ⟨.tok ⟨7⟩, "unexpected end of input, expected expression"⟩ rfl rfl

/-! ### Inner descriptor parsing (`HtmlComponentInner::parse`, `Props::peek`,
`ListProps::parse`'s collection loop, `WithProps::parse`) -/

/-- Errors of the inner descriptor parse. -/
inductive InnerError where
  | expectedIdent
  | expectedWithKeyword
  | reservedOrExtendedLabel (l : HtmlPropLabel)
deriving DecidableEq, Repr

/-- Modelled from the spec: the extended part of a property label, a sequence of
`-`-joined identifiers after the plain name (`html_prop.rs` is not under
`src/`). -/
def parseExtended : List Tok → List String × List Tok
  | .punct c :: .ident s :: rest =>
      if c = '-' then (s :: (parseExtended rest).1, (parseExtended rest).2)
      else ([], .punct c :: .ident s :: rest)
  | ts => ([], ts)

/-- Modelled from the spec: the property-declaration recognizer/parser — one
`label=value` pair, where the label is an identifier with optional extended
parts and the value is a single non-punctuation token (`html_prop.rs` is not
under `src/`). -/
def HtmlProp.parseOne (ts : List Tok) : Option (HtmlProp × List Tok) :=
  match ts with
  | .ident n :: rest =>
    match (parseExtended rest).2 with
    | .punct c :: v :: r2 =>
      if c = '=' then
        match v with
        | .punct _ => none
        | _ => some (⟨⟨n, (parseExtended rest).1⟩, v⟩, r2)
      else none
    | _ => none
  | _ => none

theorem parseExtended_length : ∀ ts : List Tok, (parseExtended ts).2.length ≤ ts.length
  | .punct c :: .ident s :: rest => by
      by_cases h : c = '-'
      · simp only [parseExtended, if_pos h]
        have := parseExtended_length rest
        simp only [List.length_cons]
        omega
      · simp [parseExtended, if_neg h]
  | .punct c :: .punct c2 :: rest => by simp [parseExtended]
  | .punct c :: .lit n :: rest => by simp [parseExtended]
  | .punct c :: [] => by simp [parseExtended]
  | .ident s :: rest => by simp [parseExtended]
  | .lit n :: rest => by simp [parseExtended]
  | [] => by simp [parseExtended]

theorem parseOne_length {ts : List Tok} {p : HtmlProp} {rest : List Tok}
    (h : HtmlProp.parseOne ts = some (p, rest)) : rest.length < ts.length := by
  cases ts with
  | nil => simp [HtmlProp.parseOne] at h
  | cons t ts0 =>
    cases t with
    | punct c => simp [HtmlProp.parseOne] at h
    | lit m => simp [HtmlProp.parseOne] at h
    | ident n =>
      have hext := parseExtended_length ts0
      simp only [HtmlProp.parseOne] at h
      split at h
      · rename_i c v r2 heq
        rw [heq] at hext
        split at h
        · split at h
          · simp at h
          · simp only [Option.some.injEq, Prod.mk.injEq] at h
            obtain ⟨-, hrest⟩ := h
            subst hrest
            simp only [List.length_cons] at hext ⊢
            omega
        · simp at h
      · simp at h

/-- The collection loop of `ListProps::parse`: parse property declarations
while one is recognized ahead. -/
def collectProps (ts : List Tok) : List HtmlProp × List Tok :=
  match h : HtmlProp.parseOne ts with
  | some (p, rest) =>
      (p :: (collectProps rest).1, (collectProps rest).2)
  | none => ([], ts)
termination_by ts.length
decreasing_by
  all_goals exact parseOne_length h

/-- `ListProps::parse`: collect declarations, validate them, and sort the
accepted list (see `ListProps.process`); a validation failure is anchored at
the offending label. -/
def ListProps.parse (ts : List Tok) : Except InnerError (List HtmlProp × List Tok) :=
  match ListProps.process (collectProps ts).1 with
  | .error l => .error (.reservedOrExtendedLabel l)
  | .ok sorted => .ok (sorted, (collectProps ts).2)

/-- `WithProps::parse`: require the keyword identifier `with`, then one plain
identifier naming the delegate value, then an optional trailing comma that is
consumed and discarded. -/
def WithProps.parse (ts : List Tok) : Except InnerError (String × List Tok) :=
  match ts with
  | .ident w :: rest =>
    if w ≠ "with" then .error .expectedWithKeyword
    else
      match rest with
      | .ident p :: rest2 =>
        match rest2 with
        | .punct c :: rest3 =>
            if c = ',' then .ok (p, rest3) else .ok (p, .punct c :: rest3)
        | _ => .ok (p, rest2)
      | _ => .error .expectedIdent
  | _ => .error .expectedIdent

/-- The two property forms (`PropType::List`, `PropType::With`). -/
inductive PropType where
  | list
  | withType
deriving DecidableEq, Repr

/-- `Props::peek`: look only at the next identifier; `with` selects the
delegate form, any other identifier the list form, anything else no
properties. -/
def Props.peek : List Tok → Option PropType
  | .ident s :: _ => some (if s = "with" then .withType else .list)
  | _ => none

/-- The property-form dispatch of `HtmlComponentInner::parse`: peek, then run
the chosen parser (or none at all). -/
def parseProps (ts : List Tok) : Except InnerError (Option PropsSpec × List Tok) :=
  match Props.peek ts with
  | some .withType =>
    match WithProps.parse ts with
    | .ok (w, rest) => .ok (some (.withProps w), rest)
    | .error e => .error e
  | some .list =>
    match ListProps.parse ts with
    | .ok (l, rest) => .ok (some (.list l), rest)
    | .error e => .error e
  | none => .ok (none, ts)

/-- Whether the stream starts with a `:` punctuation token. -/
def headIsColon : List Tok → Bool
  | .punct c :: _ => decide (c = ':')
  | _ => false

/-- The legacy accommodation of `HtmlComponentInner::parse`: consume a single
optional `:` after the type reference, ignoring the outcome. -/
def stripLegacyColon : List Tok → List Tok
  | .punct c :: rest => if c = ':' then rest else .punct c :: rest
  | ts => ts

/-- The remainder of `HtmlComponentInner::parse` after the type reference has
been consumed: skip the optional legacy colon, then parse the property spec. -/
def parseAfterTy (ty : String) (ts : List Tok) :
    Except InnerError (HtmlComponentInner × List Tok) :=
  match parseProps (stripLegacyColon ts) with
  | .error e => .error e
  | .ok (props, rest2) => .ok (⟨ty, props⟩, rest2)

/-- `HtmlComponentInner::parse`, parameterized by the external type-reference
parser (`syn::Type`): parse the type, then the rest. -/
def HtmlComponentInner.parse
    (parseTy : List Tok → Except InnerError (String × List Tok))
    (ts : List Tok) : Except InnerError (HtmlComponentInner × List Tok) :=
  match parseTy ts with
  | .error e => .error e
  | .ok (ty, rest) => parseAfterTy ty rest

/-- Whether the stream starts with a `,` punctuation token. -/
def headIsComma : List Tok → Bool
  | .punct c :: _ => decide (c = ',')
  | _ => false

/-- Whether the stream starts with an identifier token. -/
def headIsIdent : List Tok → Bool
  | .ident _ :: _ => true
  | _ => false

/-- C7: the delegate-form parser fails when the first identifier is not `with`;
otherwise it parses exactly one identifier as the delegate name, and a trailing
comma is consumed and discarded with no effect on the resulting descriptor —
`with bag` and `with bag,` both yield the delegate `bag`. -/
theorem withProps_parse_spec :
    (∀ w rest, w ≠ "with" →
      WithProps.parse (.ident w :: rest) = .error .expectedWithKeyword) ∧
    (∀ rest, headIsIdent rest = false →
      WithProps.parse (.ident "with" :: rest) = .error .expectedIdent) ∧
    (∀ p rest, headIsComma rest = false →
      WithProps.parse (.ident "with" :: .ident p :: rest) = .ok (p, rest) ∧
      WithProps.parse (.ident "with" :: .ident p :: .punct ',' :: rest) =
        .ok (p, rest)) := by
  refine ⟨?_, ?_, ?_⟩
  · intro w rest h
    simp [WithProps.parse, h]
  · intro rest h
    cases rest with
    | nil => rfl
    | cons t r =>
      cases t with
      | ident s => simp [headIsIdent] at h
      | punct c => simp [WithProps.parse]
      | lit n => simp [WithProps.parse]
  · intro p rest h
    constructor
    · cases rest with
      | nil => rfl
      | cons t r =>
        cases t with
        | punct c =>
          have hc : ¬ (c = ',') := by simpa [headIsComma] using h
          simp [WithProps.parse, hc]
        | ident s => rfl
        | lit n => rfl
    · simp [WithProps.parse]

/-- C7 witness: a wrong keyword fails; `with bag` and `with bag,` both produce
the delegate `bag` with the comma consumed. -/
theorem withProps_parse_spec_witness :
    WithProps.parse [.ident "nope"] = .error .expectedWithKeyword ∧
    WithProps.parse [.ident "with", .ident "bag"] = .ok ("bag", []) ∧
    WithProps.parse [.ident "with", .ident "bag", .punct ','] = .ok ("bag", []) :=
  ⟨withProps_parse_spec.1 "nope" [] (by decide),
   (withProps_parse_spec.2.2 "bag" [] (by rfl)).1,
   (withProps_parse_spec.2.2 "bag" [] (by rfl)).2⟩

/-- C8: a single optional colon right after the type reference is consumed and
discarded, and the parse of the remainder proceeds identically whether or not
it is present; its absence is not an error. -/
theorem legacy_colon_skippable (ty : String) (ts : List Tok)
    (h : headIsColon ts = false) :
    parseAfterTy ty (.punct ':' :: ts) = parseAfterTy ty ts := by
  have hstrip : stripLegacyColon (.punct ':' :: ts) = ts := by
    simp [stripLegacyColon]
  have hstrip2 : stripLegacyColon ts = ts := by
    cases ts with
    | nil => rfl
    | cons t r =>
      cases t with
      | punct c =>
        have hc : ¬ (c = ':') := by simpa [headIsColon] using h
        simp [stripLegacyColon, hc]
      | ident s => rfl
      | lit n => rfl
  unfold parseAfterTy
  rw [hstrip, hstrip2]

/-- C8 witness: `Foo: a=1` and `Foo a=1` hand the identical stream to the
property-spec stage. -/
theorem legacy_colon_skippable_witness :
    parseAfterTy "Foo" [.punct ':', .ident "a", .punct '=', .lit 1] =
      parseAfterTy "Foo" [.ident "a", .punct '=', .lit 1] :=
  legacy_colon_skippable "Foo" [.ident "a", .punct '=', .lit 1] (by rfl)

/-- C10: the property-form choice inspects only the first identifier token —
its tail is irrelevant; `with` selects the delegate form and any other
identifier the list form; a successful parse of a `with`-headed stream is
always a delegate (never a property list, even though `with` could label a
declaration); and without a leading identifier the property spec is absent. -/
theorem props_dispatch :
    (∀ s r r', Props.peek (.ident s :: r) = Props.peek (.ident s :: r')) ∧
    (∀ r, Props.peek (.ident "with" :: r) = some .withType) ∧
    (∀ s r, s ≠ "with" → Props.peek (.ident s :: r) = some .list) ∧
    (∀ r res, parseProps (.ident "with" :: r) = .ok res →
      ∃ p rest, res = (some (.withProps p), rest)) ∧
    (∀ ts, headIsIdent ts = false → parseProps ts = .ok (none, ts)) := by
  refine ⟨?_, ?_, ?_, ?_, ?_⟩
  · intro s r r'
    rfl
  · intro r
    simp [Props.peek]
  · intro s r h
    simp [Props.peek, h]
  · intro r res h
    cases hw : WithProps.parse (.ident "with" :: r) with
    | ok pr =>
      obtain ⟨w, rest⟩ := pr
      refine ⟨w, rest, ?_⟩
      have hp : parseProps (.ident "with" :: r) = .ok (some (.withProps w), rest) := by
        simp [parseProps, Props.peek, hw]
      rw [hp] at h
      exact (Except.ok.inj h).symm
    | error e =>
      have hp : parseProps (.ident "with" :: r) = .error e := by
        simp [parseProps, Props.peek, hw]
      rw [hp] at h
      exact absurd h (by simp)
  · intro ts h
    cases ts with
    | nil => rfl
    | cons t r =>
      cases t with
      | ident s => simp [headIsIdent] at h
      | punct c => rfl
      | lit n => rfl

/-- C10 witness: `with …` selects the delegate form whatever follows, `a=…`
the list form, a literal-headed stream yields the absent spec, and the
successful parse of `with bag` is a delegate descriptor. -/
theorem props_dispatch_witness :
    Props.peek [.ident "with", .ident "bag"] = some .withType ∧
    Props.peek [.ident "a", .punct '='] = some .list ∧
    parseProps [.lit 5] = .ok (none, [.lit 5]) ∧
    (∃ p rest, ((some (.withProps "bag") : Option PropsSpec), ([] : List Tok)) =
      (some (.withProps p), rest)) :=
  ⟨props_dispatch.2.1 [.ident "bag"],
   props_dispatch.2.2.1 "a" [.punct '='] (by decide),
   props_dispatch.2.2.2.2 [.lit 5] (by rfl),
   props_dispatch.2.2.2.1 [.ident "bag"] (some (.withProps "bag"), []) (by rfl)⟩

/-- C2 counterexample: `a=1 a=2` and `a=2 a=1` declare the same (label, value)
pairs in different orders and are both accepted, yet the stable sort keeps
each input's declaration order for the equal labels, so the parsed results
differ. -/
theorem listProps_order_dependent_on_duplicates :
    ListProps.process [exPropA, exPropA2] = .ok [exPropA, exPropA2] ∧
    ListProps.process [exPropA2, exPropA] = .ok [exPropA2, exPropA] ∧
    List.Perm [exPropA, exPropA2] [exPropA2, exPropA] ∧
    ([exPropA, exPropA2] : List HtmlProp) ≠ [exPropA2, exPropA] :=
  ⟨rfl, rfl, List.Perm.swap exPropA2 exPropA [], by decide⟩
